import Mathlib

/-!
Shallow embedding of the latent-self media-gallery application.

Strings are modelled as lists of characters so that every operation is a
plain executable recursion with the exact semantics of the JavaScript
string methods used in the source.  The filesystem store is modelled as an
association list from paths to file contents, where later writes shadow
earlier ones.  The randomness of the source (engagement counters,
Fisher-Yates shuffling, random initial selection) is modelled by explicit
oracle parameters.
-/

/-- A string, modelled as its list of characters. -/
abbrev Str := List Char

/-- Character list of a Lean string literal (used to write concrete inputs). -/
def str (x : String) : Str := x.data

/-! ### JavaScript string-method embeddings -/

/-- Embeds the regex replace of every colon and dot by a hyphen
(the source expression is timestamp.replace with the global class of colon
and dot, replacement hyphen). -/
def sanitizeTimestamp (ts : Str) : Str :=
  ts.map (fun c => if c = ':' ∨ c = '.' then '-' else c)

/-- Embeds the JavaScript s.replace(pat, rep) with a plain string pattern:
only the first occurrence of pat is replaced. -/
def replaceFirst (l pat rep : Str) : Str :=
  match l with
  | [] => if pat.isPrefixOf ([] : Str) then rep else []
  | c :: cs =>
    if pat.isPrefixOf (c :: cs) then rep ++ (c :: cs).drop pat.length
    else c :: replaceFirst cs pat rep

/-- Embeds the end-anchored regex replace used by the pages-router upload
handler: the pattern is replaced only when it is the final extension. -/
def replaceEnd (l pat rep : Str) : Str :=
  if pat.isSuffixOf l then l.take (l.length - pat.length) ++ rep else l

/-- Whether pat occurs as a contiguous substring of l. -/
def containsSub (pat : Str) : Str → Bool
  | [] => pat.isPrefixOf ([] : Str)
  | c :: cs => pat.isPrefixOf (c :: cs) || containsSub pat cs

/-- Embeds the JavaScript s.split(sep) for a one-character separator. -/
def splitOnChar (sep : Char) : Str → List Str
  | [] => [[]]
  | c :: cs =>
    if c = sep then [] :: splitOnChar sep cs
    else
      match splitOnChar sep cs with
      | [] => [[c]]
      | g :: gs => (c :: g) :: gs

/-- Embeds the JavaScript parts.join(sep). -/
def joinSep (sep : Str) : List Str → Str
  | [] => []
  | [x] => x
  | x :: y :: xs => x ++ sep ++ joinSep sep (y :: xs)

/-- Embeds the JavaScript s.trim(). -/
def trimL (l : Str) : Str :=
  ((l.dropWhile Char.isWhitespace).reverse.dropWhile Char.isWhitespace).reverse

/-- Lexicographic boolean less-or-equal on strings induced by a numeric key
on characters.  Characters with equal keys compare as equivalent, so any
key yields a consistent (total, transitive) comparison. -/
def keyLe (key : Char → Nat) : Str → Str → Bool
  | [], _ => true
  | _ :: _, [] => false
  | a :: as, b :: bs => if key a = key b then keyLe key as bs else decide (key a < key b)

/-- Plain code-point comparison of strings, as a boolean less-or-equal.
This is the comparison the specification's sorting language refers to.  The
source's sort comparator is localeCompare, a locale-sensitive collation
that agrees with this order only when the collation matches code-point
order; the collation itself enters the embedding as an oracle (see
listPosts). -/
def lexLe : Str → Str → Bool := keyLe Char.toNat

/-- An integer comparator (negative, zero, positive) from a boolean
less-or-equal, as localeCompare-style comparators report order. -/
def cmpOfLe (le : Str → Str → Bool) (x y : Str) : Int :=
  if le x y then (if le y x then 0 else -1) else 1

/-- The plain code-point comparator as a collation-oracle value. -/
def lexCmp : Str → Str → Int := cmpOfLe lexLe

/-- A character key modelling the default-locale collation of letters:
each lowercase letter collates immediately before its uppercase partner
(a, then A, then b, then B, ...), the order ICU default collations use and
the opposite of code-point order on case. -/
def caseKey (c : Char) : Nat :=
  if 65 ≤ c.toNat ∧ c.toNat ≤ 90 then 2 * (c.toNat + 32) + 1 else 2 * c.toNat

/-- A concrete consistent collation oracle with the default-locale case
behaviour (total and transitive: caseCmp_total, caseCmp_trans); it
diverges from plain code-point comparison on letter case. -/
def caseCmp : Str → Str → Int := cmpOfLe (keyLe caseKey)

/-! ### Upload handlers -/

/-- The filename derivation shared by both upload handlers: sanitize the
timestamp, then either append the original name directly (when it starts
with a dot) or join the two with a hyphen. -/
def deriveFilename (timestamp originalName : Str) : Str :=
  let timestampStr := sanitizeTimestamp timestamp
  match originalName with
  | '.' :: _ => timestampStr ++ originalName
  | _ => timestampStr ++ '-' :: originalName

/-- The filename derivation as the specification words it: every colon and
dot of the timestamp replaced by a hyphen, then a hyphen and the original
name, or the original name directly when that name starts with a dot. -/
def specSanitize : Str → Str
  | [] => []
  | c :: cs => (if c = ':' then '-' else if c = '.' then '-' else c) :: specSanitize cs

/-- Specification-side filename derivation (compare deriveFilename). -/
def specDeriveFilename (timestamp originalName : Str) : Str :=
  if (['.'] : Str).isPrefixOf originalName then specSanitize timestamp ++ originalName
  else specSanitize timestamp ++ '-' :: originalName

/-- The record returned by an upload (all engagement counters zero). -/
structure PostJson where
  id : Str
  timestamp : Str
  prompt : Str
  story : Str
  filename : Str
  type : Str
  likes : Nat
  comments : Nat
  shares : Nat
deriving DecidableEq

/-- App-router upload handler (route.ts POST), after field defaulting: the
list of filesystem writes it performs, in order, and the returned record.
Sidecar paths replace the first occurrence of the dot-png substring. -/
def uploadApp (timestamp prompt story type originalName image : Str) :
    List (Str × Str) × PostJson :=
  let filename := deriveFilename timestamp originalName
  let writes :=
    [(filename, image),
     (replaceFirst filename (str ".png") (str ".txt"), prompt ++ '\n' :: type)] ++
    (if story = [] then [] else
      [(replaceFirst filename (str ".png") (str "_story.txt"), story)])
  (writes,
   { id := filename, timestamp := timestamp, prompt := prompt, story := story,
     filename := filename, type := type, likes := 0, comments := 0, shares := 0 })

/-- Pages-router upload handler, identical except that the sidecar paths use
the end-anchored replace of the final dot-png extension. -/
def uploadPages (timestamp prompt story type originalName image : Str) :
    List (Str × Str) × PostJson :=
  let filename := deriveFilename timestamp originalName
  let writes :=
    [(filename, image),
     (replaceEnd filename (str ".png") (str ".txt"), prompt ++ '\n' :: type)] ++
    (if story = [] then [] else
      [(replaceEnd filename (str ".png") (str "_story.txt"), story)])
  (writes,
   { id := filename, timestamp := timestamp, prompt := prompt, story := story,
     filename := filename, type := type, likes := 0, comments := 0, shares := 0 })

/-- The stem of a filename as the specification uses the word: everything
before the final dot, or the whole name when it has no dot. -/
def stemOf (f : Str) : Str :=
  if '.' ∈ f then (((f.reverse.dropWhile (fun c => c ≠ '.')).drop 1)).reverse else f

/-- True when the dot-png substring occurs in f exactly once, as its final
four characters. -/
def pngOnceFinal (f : Str) : Bool :=
  (str ".png").isSuffixOf f && ! containsSub (str ".png") (f.take (f.length - 1))

/-! ### Filesystem store -/

/-- The flat-file store: an association list from paths to contents.
A later write shadows an earlier one on read. -/
abbrev Store := List (Str × Str)

/-- Write a file (newest entry first, so reads see the latest write). -/
def storeWrite (s : Store) (k v : Str) : Store := (k, v) :: s

/-- Read a file: the most recent write to that path, if any. -/
def storeRead (s : Store) (k : Str) : Option Str :=
  (s.find? (fun e => decide (e.1 = k))).map (·.2)

/-- Directory listing: each stored path once. -/
def storeFiles (s : Store) : List Str := (s.map (·.1)).dedup

/-- Apply a list of writes, in order, to a store. -/
def applyWrites (ws : List (Str × Str)) (s : Store) : Store :=
  ws.foldl (fun st kv => storeWrite st kv.1 kv.2) s

/-- The store produced by a single app-router upload into an empty store. -/
def uploadStoreApp (timestamp prompt story type originalName image : Str) : Store :=
  applyWrites (uploadApp timestamp prompt story type originalName image).1 []

/-! ### Post listing service and static snapshot generator -/

/-- A listed post. -/
structure Post where
  id : Str
  timestamp : Str
  prompt : Str
  story : Str
  filename : Str
  type : Str
  likes : Nat
  comments : Nat
  shares : Nat
deriving DecidableEq

/-- Timestamp reconstruction from the raw stem string: split on hyphens,
and when there are at least four parts whose fourth is a non-empty
six-character group, rejoin the first three as the date and cut the fourth
into hours, minutes and seconds; otherwise keep the raw string. -/
def parseStemTimestamp (rawTimestamp : Str) : Str :=
  let parts := splitOnChar '-' rawTimestamp
  if 4 ≤ parts.length then
    let datePart := joinSep (str "-") (parts.take 3)
    let timePart := parts.getD 3 []
    if timePart ≠ [] ∧ timePart.length = 6 then
      datePart ++ ' ' :: (timePart.take 2) ++ ':' :: ((timePart.drop 2).take 2)
        ++ ':' :: ((timePart.drop 4).take 2)
    else rawTimestamp
  else rawTimestamp

/-- The listed timestamp of an image file: the first dot-png occurrence is
removed from the name, and the result is parsed. -/
def listedTimestampOf (file : Str) : Str :=
  parseStemTimestamp (replaceFirst file (str ".png") [])

/-- Specification-side timestamp parse, following the claim words: split the
stem on hyphens; with at least four parts whose fourth has exactly six
characters, the result is the first three parts rejoined with hyphens, a
space, and the fourth part cut into HH colon MM colon SS; otherwise the raw
stem verbatim. -/
def claimParseStem (stem : Str) : Str :=
  match splitOnChar '-' stem with
  | p0 :: p1 :: p2 :: p3 :: _ =>
    if p3.length = 6 then
      p0 ++ str "-" ++ p1 ++ str "-" ++ p2 ++ str " "
        ++ p3.take 2 ++ str ":" ++ (p3.drop 2).take 2 ++ str ":" ++ (p3.drop 4).take 2
    else stem
  | _ => stem

/-- One listed post built from a stored image file: parse the timestamp from
the filename, read the prompt/type sidecar (first line prompt, second line
type, with defaults), read and trim the story sidecar, and draw the
engagement counters from the randomness oracle. -/
def postFromFile (store : Store) (rand : Str → Nat × Nat × Nat) (file : Str) : Post :=
  let timestamp := listedTimestampOf file
  let promptFile := replaceFirst file (str ".png") (str ".txt")
  let pt : Str × Str :=
    match storeRead store promptFile with
    | none => (str "No prompt available", str "generated")
    | some content =>
      let lines := splitOnChar '\n' content
      let l0 := lines.headD []
      let p := if l0 = [] then str "No prompt available" else l0
      let t :=
        if 1 < lines.length then
          let l1 := trimL (lines.getD 1 [])
          if l1 = [] then str "generated" else l1
        else str "generated"
      (p, t)
  let story :=
    match storeRead store (replaceFirst file (str ".png") (str "_story.txt")) with
    | none => []
    | some s => trimL s
  { id := file, timestamp := timestamp, prompt := pt.1, story := story,
    filename := file, type := pt.2,
    likes := (rand file).1 % 50 + 5,
    comments := (rand file).2.1 % 10,
    shares := (rand file).2.2 % 5 }

/-- The claim-side ordering: a comes before b exactly when the timestamp of
b is at most the timestamp of a under plain string comparison (descending,
newest first).  This is the order the specification asserts, not the
comparator the source calls. -/
def postBefore (a b : Post) : Prop := lexLe b.timestamp a.timestamp = true

instance : DecidableRel postBefore := fun a b => by
  unfold postBefore; infer_instance

/-- The before-relation the source's sort call induces: the comparator is
the expression localeCompare of b.timestamp against a.timestamp, so a
sorts before b exactly when the collation oracle reports at most zero. -/
def postBeforeWith (cmp : Str → Str → Int) (a b : Post) : Prop :=
  cmp b.timestamp a.timestamp ≤ 0

instance (cmp : Str → Str → Int) : DecidableRel (postBeforeWith cmp) := fun a b => by
  unfold postBeforeWith; infer_instance

/-- The posts listing: every stored file ending in dot-png, turned into a
post and sorted newest-first by the timestamp string.  The sort comparator
in the source is localeCompare, a locale- and environment-dependent
collation, which therefore enters the embedding as the oracle cmp. -/
def listPosts (store : Store) (rand : Str → Nat × Nat × Nat)
    (cmp : Str → Str → Int) : List Post :=
  let files := (storeFiles store).filter (fun f => (str ".png").isSuffixOf f)
  List.insertionSort (postBeforeWith cmp) (files.map (postFromFile store rand))

/-- The static snapshot generator performs the same scan, parse and sort as
the listing service (its source is a verbatim copy of the same pipeline). -/
def generatePostsJson (store : Store) (rand : Str → Nat × Nat × Nat)
    (cmp : Str → Str → Int) : List Post :=
  listPosts store rand cmp

/-! ### Image route -/

/-- Content type inference of the image route: the final dot-separated
component of the name, lower-cased; png and jpg or jpeg are recognized
and anything else defaults to png. -/
def contentTypeOf (filename : Str) : Str :=
  let ext := ((splitOnChar '.' filename).getLastD []).map Char.toLower
  if ext = str "png" then str "image/png"
  else if ext = str "jpg" ∨ ext = str "jpeg" then str "image/jpeg"
  else str "image/png"

/-- The image route: try the public export directory first, then the live
store; serve the bytes with the inferred content type, or nothing (404)
when neither directory has the file. -/
def serveImage (publicDb db : Store) (filename : Str) : Option (Str × Str) :=
  match storeRead publicDb filename with
  | some content => some (content, contentTypeOf filename)
  | none =>
    match storeRead db filename with
    | some content => some (content, contentTypeOf filename)
    | none => none

/-! ### Chronological feed controller (part_005) -/

/-- The pagination state of the chronological feed view.  The view keeps
the full fetched list, the number of posts revealed from the front, and
the set of previously seen ids (always the ids of allPosts, since every
load stores the fetched list in both).  Posts are identified by id. -/
structure Feed5 where
  allPosts : List Str
  displayedCount : Nat
deriving DecidableEq

/-- The initial React state: no posts, displayedCount already at the page
size of five. -/
def initFeed5 : Feed5 := { allPosts := [], displayedCount := 5 }

/-- Initial (or manual-refresh) load: replace the list and reset the
displayed count to the page size, without clamping. -/
def feed5Load (fetched : List Str) (_s : Feed5) : Feed5 :=
  { allPosts := fetched, displayedCount := 5 }

/-- Periodic refresh: replace the list with the fetched one and clamp the
displayed count down to the new length.  The count never grows here, no
matter how many fetched ids are new. -/
def feed5Refresh (fetched : List Str) (s : Feed5) : Feed5 :=
  { allPosts := fetched, displayedCount := min s.displayedCount fetched.length }

/-- Load-more: a no-op at or past the end, otherwise reveal five more,
clamped to the total. -/
def feed5LoadMore (s : Feed5) : Feed5 :=
  if s.allPosts.length ≤ s.displayedCount then s
  else { s with displayedCount := min (s.displayedCount + 5) s.allPosts.length }

/-- The transitions of the chronological feed controller. -/
inductive FeedEvent where
  | load (fetched : List Str)
  | refresh (fetched : List Str)
  | more
deriving DecidableEq

/-- One controller step. -/
def feed5Step (s : Feed5) : FeedEvent → Feed5
  | .load fetched => feed5Load fetched s
  | .refresh fetched => feed5Refresh fetched s
  | .more => feed5LoadMore s

/-- The state reached from the initial state by a list of transitions. -/
def runFeed5 (evs : List FeedEvent) : Feed5 := evs.foldl feed5Step initFeed5

/-! ### Randomized feed controller (random page) -/

/-- One Fisher-Yates swap on a list; out-of-range indices leave the list
unchanged (they never occur in the loop). -/
def listSwap (l : List Str) (i j : Nat) : List Str :=
  if i < l.length ∧ j < l.length then
    (l.set i (l.getD j [])).set j (l.getD i [])
  else l

/-- The Fisher-Yates loop, counting i down from the last index to one; the
oracle chooses the partner index j in the range zero to i. -/
def fisherYatesAux (rnd : Nat → Nat) : List Str → Nat → List Str
  | l, 0 => l
  | l, i + 1 => fisherYatesAux rnd (listSwap l (i + 1) (rnd (i + 1) % (i + 2))) i

/-- Fisher-Yates shuffle of a list, with the random draws supplied by an
oracle indexed by loop position. -/
def shuffleArray (rnd : Nat → Nat) (l : List Str) : List Str :=
  fisherYatesAux rnd l (l.length - 1)

/-- State of the randomized feed view (posts identified by id). -/
structure RFeed where
  allPosts : List Str
  displayedCount : Nat
deriving DecidableEq

/-- The fetched posts whose ids are not among the current ones (the
newPosts filter of the randomized feed refresh). -/
def newOnes (cur fetched : List Str) : List Str :=
  fetched.filter (fun p => ! cur.contains p)

/-- The refresh transition of the randomized feed view: with no posts yet,
shuffle the whole fetched list (the initial-shuffle branch, which does not
raise the new-posts flag); otherwise find the fetched posts whose ids are
not already present, and when there are any, shuffle them, prepend them,
and raise the displayed count by their number, clamped to the new total. -/
def randomRefresh (rnd : Nat → Nat) (fetched : List Str) (s : RFeed) : RFeed :=
  if s.allPosts = [] then
    let sh := shuffleArray rnd fetched
    { allPosts := sh, displayedCount := min s.displayedCount sh.length }
  else
    let newPosts := newOnes s.allPosts fetched
    if newPosts = [] then
      { s with displayedCount := min s.displayedCount s.allPosts.length }
    else
      let sh := shuffleArray rnd newPosts
      { allPosts := sh ++ s.allPosts,
        displayedCount :=
          min (s.displayedCount + newPosts.length) (sh.length + s.allPosts.length) }

/-! ### Strip view pointer and touch scrub selection (hover page) -/

/-- The selection state of the strip view. -/
structure StripState where
  hoveredPost : Option Str
  displayedPost : Option Str
  lastHoveredPost : Option Str
  isDragging : Bool
  isTouching : Bool
deriving DecidableEq

/-- The state after the posts load, with the initial selection drawn at the
oracle-chosen random index (both displayed and last-hovered start there). -/
def stripInit (posts : List Str) (rIdx : Nat) : StripState :=
  if posts.length = 0 then
    { hoveredPost := none, displayedPost := none, lastHoveredPost := none,
      isDragging := false, isTouching := false }
  else
    let p := posts.getD (rIdx % posts.length) []
    { hoveredPost := none, displayedPost := some p, lastHoveredPost := some p,
      isDragging := false, isTouching := false }

/-- Touch move: divide the container height by the number of posts, take the
floor of the touch offset over that band height, clamp into range, and
select that post (hovered, displayed, and last-hovered all updated). -/
def stripTouchMove (posts : List Str) (y H : ℚ) (s : StripState) : StripState :=
  if posts.length = 0 then s
  else
    let postHeight := H / posts.length
    let touchedIndex := ⌊y / postHeight⌋
    let validIndex := (max 0 (min touchedIndex ((posts.length : ℤ) - 1))).toNat
    match posts.get? validIndex with
    | some p =>
      { s with hoveredPost := some p, displayedPost := some p, lastHoveredPost := some p }
    | none => s

/-- Mouse move: same floor computation, but the index is only used when it
already lies in range and the offset lies inside that band; anything else
leaves the state untouched (no clamping). -/
def stripMouseMove (posts : List Str) (y H : ℚ) (s : StripState) : StripState :=
  if posts.length = 0 then s
  else
    let postHeight := H / posts.length
    let hoveredIndex := ⌊y / postHeight⌋
    if 0 ≤ hoveredIndex ∧ hoveredIndex < (posts.length : ℤ) then
      match posts.get? hoveredIndex.toNat with
      | some p =>
        let postTop := (hoveredIndex : ℚ) * postHeight
        if postTop ≤ y ∧ y ≤ postTop + postHeight then
          { s with hoveredPost := some p, displayedPost := some p,
                   lastHoveredPost := some p }
        else s
      | none => s
    else s

/-- Mouse down: start dragging, then select like a mouse move but without
the band check. -/
def stripMouseDown (posts : List Str) (y H : ℚ) (s : StripState) : StripState :=
  let s1 := { s with isDragging := true }
  if posts.length = 0 then s1
  else
    let postHeight := H / posts.length
    let clickedIndex := ⌊y / postHeight⌋
    if 0 ≤ clickedIndex ∧ clickedIndex < (posts.length : ℤ) then
      match posts.get? clickedIndex.toNat with
      | some p =>
        { s1 with hoveredPost := some p, displayedPost := some p,
                  lastHoveredPost := some p }
      | none => s1
    else s1

/-- Touch start: start touching, then select exactly like a touch move. -/
def stripTouchStart (posts : List Str) (y H : ℚ) (s : StripState) : StripState :=
  stripTouchMove posts y H { s with isTouching := true }

/-- Mouse up: stop dragging, keep the last hovered post displayed, clear the
hover highlight. -/
def stripMouseUp (s : StripState) : StripState :=
  { s with isDragging := false,
           displayedPost := match s.lastHoveredPost with
             | some p => some p
             | none => s.displayedPost,
           hoveredPost := none }

/-- Mouse leave: identical release behaviour to mouse up. -/
def stripMouseLeave (s : StripState) : StripState := stripMouseUp s

/-- Touch end: stop touching, keep the last hovered post displayed, clear
the hover highlight. -/
def stripTouchEnd (s : StripState) : StripState :=
  { s with isTouching := false,
           displayedPost := match s.lastHoveredPost with
             | some p => some p
             | none => s.displayedPost,
           hoveredPost := none }

/-- Touch cancel (bound to the global touch-end handler, which is guarded by
the touching flag). -/
def stripTouchCancel (s : StripState) : StripState :=
  if s.isTouching then stripTouchEnd s else s

/-- The pointer and touch events of the strip view. -/
inductive StripEvent where
  | mouseMove (y H : ℚ)
  | mouseDown (y H : ℚ)
  | touchStart (y H : ℚ)
  | touchMove (y H : ℚ)
  | mouseUp
  | mouseLeave
  | touchEnd
  | touchCancel

/-- One strip-view event step. -/
def stripStep (posts : List Str) (e : StripEvent) (s : StripState) : StripState :=
  match e with
  | .mouseMove y H => stripMouseMove posts y H s
  | .mouseDown y H => stripMouseDown posts y H s
  | .touchStart y H => stripTouchStart posts y H s
  | .touchMove y H => stripTouchMove posts y H s
  | .mouseUp => stripMouseUp s
  | .mouseLeave => stripMouseLeave s
  | .touchEnd => stripTouchEnd s
  | .touchCancel => stripTouchCancel s

/-- The strip-view state after a sequence of events from the loaded state. -/
def runStrip (posts : List Str) (rIdx : Nat) (evs : List StripEvent) : StripState :=
  evs.foldl (fun st e => stripStep posts e st) (stripInit posts rIdx)

/-! ### Helper lemmas: swapping and shuffling -/

/-- Setting one position exchanges its predicate-count contribution for the
new one. -/
theorem countP_set_add (p : Str → Bool) (b : Str) :
    ∀ (l : List Str) (i : Nat), i < l.length →
      (l.set i b).countP p + (if p (l.getD i []) then 1 else 0)
        = l.countP p + (if p b then 1 else 0) := by
  intro l
  induction l with
  | nil => intro i h; simp at h
  | cons x xs ih =>
    intro i h
    cases i with
    | zero =>
      simp only [List.set_cons_zero, List.countP_cons, List.getD_cons_zero]
      split_ifs <;> omega
    | succ n =>
      have hn : n < xs.length := by simpa using h
      have := ih n hn
      simp only [List.set_cons_succ, List.countP_cons, List.getD_cons_succ]
      split_ifs at this ⊢ <;> omega

/-- Reading after setting a different position is unchanged, and reading the
set position in range gives the new value. -/
theorem getD_set (b : Str) :
    ∀ (l : List Str) (i j : Nat), j < l.length →
      (l.set i b).getD j [] = if i = j then (if i < l.length then b else l.getD j []) else l.getD j [] := by
  intro l
  induction l with
  | nil => intro i j h; simp at h
  | cons x xs ih =>
    intro i j h
    cases i with
    | zero =>
      cases j with
      | zero => simp
      | succ m => simp
    | succ n =>
      cases j with
      | zero => simp
      | succ m =>
        have hm : m < xs.length := by simpa using h
        have := ih n m hm
        simp only [List.set_cons_succ, List.getD_cons_succ, List.length_cons]
        rw [this]
        by_cases hnm : n = m
        · subst hnm
          simp only [if_pos rfl]
          by_cases hlt : n < xs.length
          · simp [hlt, Nat.succ_lt_succ hlt]
          · simp [hlt, fun hc => hlt (Nat.lt_of_succ_lt_succ hc)]
        · simp [hnm, fun hc => hnm (Nat.succ_injective hc)]

/-- Swapping two in-range positions preserves every predicate count. -/
theorem swap_countP (p : Str → Bool) (l : List Str) (i j : Nat)
    (hi : i < l.length) (hj : j < l.length) :
    ((l.set i (l.getD j [])).set j (l.getD i [])).countP p = l.countP p := by
  have hlen : j < (l.set i (l.getD j [])).length := by simpa using hj
  have hget : (l.set i (l.getD j [])).getD j [] = l.getD j [] := by
    rw [getD_set _ l i j hj]
    split <;> simp_all
  have h1 := countP_set_add p (l.getD j []) l i hi
  have h2 := countP_set_add p (l.getD i []) (l.set i (l.getD j [])) j hlen
  rw [hget] at h2
  split_ifs at h1 h2 <;> omega

/-- One Fisher-Yates swap permutes the list. -/
theorem listSwap_perm (l : List Str) (i j : Nat) : (listSwap l i j).Perm l := by
  unfold listSwap
  split
  · rename_i h
    rw [List.perm_iff_count]
    intro a
    simp only [List.count]
    exact swap_countP _ l i j h.1 h.2
  · exact List.Perm.refl l

/-- The Fisher-Yates loop permutes the list. -/
theorem fisherYatesAux_perm (rnd : Nat → Nat) :
    ∀ (n : Nat) (l : List Str), (fisherYatesAux rnd l n).Perm l := by
  intro n
  induction n with
  | zero => intro l; exact List.Perm.refl l
  | succ m ih =>
    intro l
    exact (ih _).trans (listSwap_perm l (m + 1) (rnd (m + 1) % (m + 2)))

/-- The shuffle is a permutation of its input. -/
theorem shuffleArray_perm (rnd : Nat → Nat) (l : List Str) :
    (shuffleArray rnd l).Perm l :=
  fisherYatesAux_perm rnd (l.length - 1) l

/-- The shuffle preserves the length. -/
theorem shuffleArray_length (rnd : Nat → Nat) (l : List Str) :
    (shuffleArray rnd l).length = l.length :=
  (shuffleArray_perm rnd l).length_eq

/-! ### C1: periodic-refresh growth -/

/-- C1 counterexample: the chronological feed controller (part 005) refutes
the claim as stated.  After an initial load of six posts, a refresh whose
fetch contains exactly one unknown id yields a list that grew by one, but
displayedCount stays at five instead of increasing by one (clamped), as the
claim requires for every controller state. -/
theorem feed5_refresh_growth_counterexample :
    (([str "n", str "a", str "b", str "c", str "d", str "e", str "f"].filter
        (fun p => ! (runFeed5 [FeedEvent.load
          [str "a", str "b", str "c", str "d", str "e", str "f"]]).allPosts.contains p)).length = 1)
    ∧ (runFeed5 [FeedEvent.load [str "a", str "b", str "c", str "d", str "e", str "f"],
          FeedEvent.refresh [str "n", str "a", str "b", str "c", str "d", str "e", str "f"]]).allPosts.length
        = (runFeed5 [FeedEvent.load [str "a", str "b", str "c", str "d", str "e", str "f"]]).allPosts.length + 1
    ∧ ¬ ((runFeed5 [FeedEvent.load [str "a", str "b", str "c", str "d", str "e", str "f"],
          FeedEvent.refresh [str "n", str "a", str "b", str "c", str "d", str "e", str "f"]]).displayedCount
        = min ((runFeed5 [FeedEvent.load [str "a", str "b", str "c", str "d", str "e", str "f"]]).displayedCount + 1)
            ((runFeed5 [FeedEvent.load [str "a", str "b", str "c", str "d", str "e", str "f"],
              FeedEvent.refresh [str "n", str "a", str "b", str "c", str "d", str "e", str "f"]]).allPosts.length)) := by
  decide

/-- C1 (amended): for the randomized feed view refresh — the transition the
specification describes — with a non-empty current list, if the fetch has
k at least 1 posts with unknown ids then allPosts grows by exactly k, the
new posts (in some shuffled order) appear before every previously-known
post, and displayedCount increases by exactly k clamped to the new total.
The chronological feed view instead replaces its list wholesale and only
clamps displayedCount downwards. -/
theorem randomFeed_refresh_growth (rnd : Nat → Nat) (fetched : List Str) (s : RFeed)
    (hne : s.allPosts ≠ [])
    (hk : 1 ≤ (newOnes s.allPosts fetched).length) :
    (randomRefresh rnd fetched s).allPosts.length
        = s.allPosts.length + (newOnes s.allPosts fetched).length
    ∧ (∃ sh, (randomRefresh rnd fetched s).allPosts = sh ++ s.allPosts
        ∧ sh.Perm (newOnes s.allPosts fetched))
    ∧ (randomRefresh rnd fetched s).displayedCount
        = min (s.displayedCount + (newOnes s.allPosts fetched).length)
            ((randomRefresh rnd fetched s).allPosts.length) := by
  have hnew : newOnes s.allPosts fetched ≠ [] := by
    intro hcon
    rw [hcon] at hk
    simp at hk
  have hlen := shuffleArray_length rnd (newOnes s.allPosts fetched)
  unfold randomRefresh
  rw [if_neg hne]
  simp only [if_neg hnew]
  refine ⟨?_, ⟨shuffleArray rnd (newOnes s.allPosts fetched), rfl,
    shuffleArray_perm rnd _⟩, ?_⟩
  · simp [hlen, Nat.add_comm]
  · simp [hlen, Nat.add_comm]

/-- C1 witness: the amended growth theorem at a concrete state and fetch. -/
theorem randomFeed_refresh_growth_witness :
    (randomRefresh (fun _ => 0) [str "n", str "a"] ⟨[str "a"], 1⟩).allPosts.length
        = ([str "a"] : List Str).length + (newOnes [str "a"] [str "n", str "a"]).length
    ∧ (∃ sh, (randomRefresh (fun _ => 0) [str "n", str "a"] ⟨[str "a"], 1⟩).allPosts
          = sh ++ [str "a"]
        ∧ sh.Perm (newOnes [str "a"] [str "n", str "a"]))
    ∧ (randomRefresh (fun _ => 0) [str "n", str "a"] ⟨[str "a"], 1⟩).displayedCount
        = min (1 + (newOnes [str "a"] [str "n", str "a"]).length)
            ((randomRefresh (fun _ => 0) [str "n", str "a"] ⟨[str "a"], 1⟩).allPosts.length) :=
  randomFeed_refresh_growth (fun _ => 0) [str "n", str "a"] ⟨[str "a"], 1⟩
    (by decide) (by decide)

/-! ### C2: displayed-count invariant -/

/-- The invariant the controller actually maintains. -/
def feed5Inv (s : Feed5) : Prop := s.displayedCount ≤ max s.allPosts.length 5

/-- Every transition preserves the invariant. -/
theorem feed5Step_inv (s : Feed5) (e : FeedEvent) (h : feed5Inv s) :
    feed5Inv (feed5Step s e) := by
  cases e with
  | load fetched =>
    simp only [feed5Inv, feed5Step, feed5Load]
    omega
  | refresh fetched =>
    simp only [feed5Inv, feed5Step, feed5Refresh]
    omega
  | more =>
    simp only [feed5Inv, feed5Step, feed5LoadMore]
    split
    · exact h
    · simp only [feed5Inv] at h ⊢
      omega

/-- The invariant holds along any run. -/
theorem feed5Run_inv : ∀ (evs : List FeedEvent) (s : Feed5),
    feed5Inv s → feed5Inv (evs.foldl feed5Step s) := by
  intro evs
  induction evs with
  | nil => intro s h; exact h
  | cons e rest ih =>
    intro s h
    exact ih (feed5Step s e) (feed5Step_inv s e h)

/-- C2 counterexample: the claimed invariant displayedCount at most
len(allPosts) fails in a reachable state of the chronological feed
controller: after an initial load that fetches a single post, the
displayed count is five while the list has length one. -/
theorem feed5_invariant_counterexample :
    ¬ ((runFeed5 [FeedEvent.load [str "a"]]).displayedCount
        ≤ (runFeed5 [FeedEvent.load [str "a"]]).allPosts.length) := by
  decide

/-- C2 (amended): in every state reachable from the initial state by
initial-load, periodic-refresh and load-more transitions, displayedCount is
a natural number (hence non-negative) bounded by the maximum of
len(allPosts) and the page size five; it can exceed len(allPosts) only up
to the page size, immediately after an initial load of a short list. -/
theorem feed5_displayedCount_invariant (evs : List FeedEvent) :
    (runFeed5 evs).displayedCount ≤ max (runFeed5 evs).allPosts.length 5 :=
  feed5Run_inv evs initFeed5 (by simp [feed5Inv, initFeed5])

/-! ### C4: filename derivation -/

/-- The two sanitizers agree. -/
theorem sanitizeTimestamp_eq_spec (ts : Str) : sanitizeTimestamp ts = specSanitize ts := by
  induction ts with
  | nil => rfl
  | cons c cs ih =>
    simp only [sanitizeTimestamp, List.map_cons, specSanitize] at ih ⊢
    rw [ih]
    by_cases h1 : c = ':'
    · simp [h1]
    · by_cases h2 : c = '.'
      · simp [h1, h2]
      · simp [h1, h2]

/-- C4: the derived filename is the timestamp with every colon and dot
replaced by a hyphen, joined to the original name by a hyphen, or joined
directly when the original name starts with a dot; in particular the
documented concrete example holds. -/
theorem upload_filename_derivation :
    (∀ ts name, deriveFilename ts name = specDeriveFilename ts name)
    ∧ deriveFilename (str "2025-01-02T03:04:05.678Z") (str "art.png")
        = str "2025-01-02T03-04-05-678Z-art.png" := by
  constructor
  · intro ts name
    unfold deriveFilename specDeriveFilename
    rw [← sanitizeTimestamp_eq_spec]
    cases name with
    | nil => simp [List.isPrefixOf]
    | cons c cs =>
      by_cases h : c = '.'
      · subst h
        simp [List.isPrefixOf]
      · have : (['.'] : Str).isPrefixOf (c :: cs) = false := by
          simp [List.isPrefixOf, Ne.symm h]
        rw [this]
        simp only [Bool.false_eq_true, if_false]
        cases c
        simp_all
  · decide

/-! ### Helper lemmas: occurrence structure of replaceFirst -/

/-- A boolean prefix yields the decomposition of the list. -/
theorem isPrefixOf_exists : ∀ (pat l : Str), pat.isPrefixOf l = true →
    l = pat ++ l.drop pat.length := by
  intro pat
  induction pat with
  | nil => intro l _; simp
  | cons a as ih =>
    intro l h
    cases l with
    | nil => simp [List.isPrefixOf] at h
    | cons b bs =>
      simp only [List.isPrefixOf, Bool.and_eq_true, beq_iff_eq] at h
      obtain ⟨hab, hrest⟩ := h
      have := ih bs hrest
      simp [hab, List.length_cons, List.drop_succ_cons]
      conv_lhs => rw [this]

/-- A list is a boolean prefix of itself followed by anything. -/
theorem isPrefixOf_append_self : ∀ (pat t : Str), pat.isPrefixOf (pat ++ t) = true := by
  intro pat
  induction pat with
  | nil => intro t; simp [List.isPrefixOf]
  | cons a as ih => intro t; simp [List.isPrefixOf, ih]

/-- A boolean prefix occurrence is a substring occurrence. -/
theorem containsSub_of_isPrefixOf (pat l : Str) (h : pat.isPrefixOf l = true) :
    containsSub pat l = true := by
  cases l with
  | nil => simpa [containsSub] using h
  | cons c cs => simp [containsSub, h]

/-- The pattern occurs in any list that ends with it. -/
theorem containsSub_append_self : ∀ (a pat : Str), containsSub pat (a ++ pat) = true := by
  intro a pat
  induction a with
  | nil =>
    refine containsSub_of_isPrefixOf pat pat ?_
    have hx := isPrefixOf_append_self pat []
    rwa [List.append_nil] at hx
  | cons c a' ih => simp [containsSub, ih]

/-- A boolean suffix yields the decomposition of the list. -/
theorem isSuffixOf_exists (pat l : Str) (h : pat.isSuffixOf l = true) :
    ∃ a, l = a ++ pat := by
  unfold List.isSuffixOf at h
  have := isPrefixOf_exists pat.reverse l.reverse h
  refine ⟨(l.reverse.drop pat.reverse.length).reverse, ?_⟩
  conv_lhs => rw [← l.reverse_reverse, this]
  simp

/-- Wherever the pattern occurs, replaceFirst rewrites the earliest
occurrence, whatever the replacement is. -/
theorem replaceFirst_decomp : ∀ (l pat : Str), containsSub pat l = true →
    ∃ p q, l = p ++ pat ++ q ∧ ∀ rep, replaceFirst l pat rep = p ++ rep ++ q := by
  intro l
  induction l with
  | nil =>
    intro pat h
    simp only [containsSub] at h
    have hpat : pat = [] := by
      cases pat with
      | nil => rfl
      | cons a as => simp [List.isPrefixOf] at h
    subst hpat
    exact ⟨[], [], by simp, by intro rep; simp [replaceFirst, List.isPrefixOf]⟩
  | cons c cs ih =>
    intro pat h
    by_cases hp : pat.isPrefixOf (c :: cs) = true
    · refine ⟨[], (c :: cs).drop pat.length, ?_, ?_⟩
      · simpa using isPrefixOf_exists pat (c :: cs) hp
      · intro rep
        simp [replaceFirst, hp]
    · have hcs : containsSub pat cs = true := by
        simp only [containsSub, Bool.or_eq_true] at h
        rcases h with h | h
        · exact absurd h hp
        · exact h
      obtain ⟨p, q, hdec, hrepl⟩ := ih pat hcs
      refine ⟨c :: p, q, by simp [hdec], ?_⟩
      intro rep
      simp only [replaceFirst, if_neg hp, hrepl rep, List.cons_append]

/-- When the pattern only occurs at the very end, replaceFirst rewrites
exactly that final occurrence. -/
theorem replaceFirst_final : ∀ (a pat rep : Str), pat ≠ [] →
    containsSub pat ((a ++ pat).take ((a ++ pat).length - 1)) = false →
    replaceFirst (a ++ pat) pat rep = a ++ rep := by
  intro a
  induction a with
  | nil =>
    intro pat rep hne _
    cases pat with
    | nil => exact absurd rfl hne
    | cons c cs =>
      have hp : (c :: cs).isPrefixOf (c :: cs ++ ([] : Str)) = true :=
        isPrefixOf_append_self (c :: cs) []
      simp only [List.append_nil] at hp ⊢
      simp [replaceFirst, hp]
  | cons c a' ih =>
    intro pat rep hne h
    have hlen1 : 1 ≤ (a' ++ pat).length := by
      cases pat with
      | nil => exact absurd rfl hne
      | cons x xs => simp only [List.length_append, List.length_cons]; omega
    have h' : containsSub pat ((c :: (a' ++ pat)).take (a'.length + pat.length)) = false := by
      simpa only [List.cons_append, List.length_cons, Nat.succ_sub_one,
        List.length_append] using h
    have htake : (c :: (a' ++ pat)).take (a'.length + pat.length)
        = c :: (a' ++ pat).take ((a' ++ pat).length - 1) := by
      obtain ⟨m, hm⟩ : ∃ m, (a' ++ pat).length = m + 1 :=
        ⟨(a' ++ pat).length - 1, by omega⟩
      have hsum : a'.length + pat.length = m + 1 := by
        rw [← List.length_append, hm]
      rw [hsum, List.take_succ_cons]
      congr 2
      omega
    have hp2 : pat.isPrefixOf (c :: (a' ++ pat)) = false := by
      by_contra hcon
      rw [Bool.not_eq_false] at hcon
      have hdec := isPrefixOf_exists pat _ hcon
      have heq : (c :: (a' ++ pat)).take (a'.length + pat.length)
          = pat ++ ((c :: (a' ++ pat)).drop pat.length).take
              (a'.length + pat.length - pat.length) := by
        conv_lhs => rw [hdec]
        rw [List.take_append_eq_append_take,
          List.take_of_length_le (by omega : pat.length ≤ a'.length + pat.length)]
      have hpre : pat.isPrefixOf
          ((c :: (a' ++ pat)).take (a'.length + pat.length)) = true := by
        rw [heq]
        exact isPrefixOf_append_self pat _
      simp [containsSub_of_isPrefixOf _ _ hpre] at h'
    have hrest : containsSub pat ((a' ++ pat).take ((a' ++ pat).length - 1)) = false := by
      rw [htake] at h'
      simp only [containsSub, Bool.or_eq_false_iff] at h'
      exact h'.2
    show replaceFirst (c :: (a' ++ pat)) pat rep = c :: (a' ++ rep)
    simp only [replaceFirst,
      if_neg (by simp [hp2] : ¬ pat.isPrefixOf (c :: (a' ++ pat)) = true)]
    rw [ih pat rep hne hrest]

/-- The stem of a name that ends in the png extension is what precedes it. -/
theorem stemOf_append_png (a : Str) : stemOf (a ++ str ".png") = a := by
  have hmem : '.' ∈ a ++ str ".png" := by
    rw [List.mem_append]
    right
    decide
  unfold stemOf
  rw [if_pos hmem, List.reverse_append]
  have hrev : (str ".png").reverse = 'g' :: 'n' :: 'p' :: '.' :: [] := by decide
  rw [hrev]
  have h1 : (('g' : Char) ≠ '.') = True := by simp
  have h2 : (('n' : Char) ≠ '.') = True := by simp
  have h3 : (('p' : Char) ≠ '.') = True := by simp
  have h4 : ¬ (('.' : Char) ≠ '.') := by simp
  simp [List.dropWhile, h1, h2, h3, h4]

/-- A filename whose only png-extension occurrence is final decomposes as
its stem followed by the extension, and replaceFirst rewrites exactly that
extension. -/
theorem pngOnce_decomp (f : Str) (h : pngOnceFinal f = true) :
    ∃ a, f = a ++ str ".png" ∧ stemOf f = a
      ∧ ∀ rep, replaceFirst f (str ".png") rep = a ++ rep := by
  unfold pngOnceFinal at h
  rw [Bool.and_eq_true, Bool.not_eq_eq_eq_not, Bool.not_true] at h
  obtain ⟨hsuf, hnot⟩ := h
  obtain ⟨a, ha⟩ := isSuffixOf_exists _ _ hsuf
  subst ha
  have hlen4 : (a ++ str ".png").length - 1 = (a ++ str ".png").length - 1 := rfl
  refine ⟨a, rfl, stemOf_append_png a, ?_⟩
  intro rep
  exact replaceFirst_final a (str ".png") rep (by decide) hnot

/-! ### C5: listing timestamp parse -/

/-- The code-side parse agrees with the specification-side parse of the same
raw string. -/
theorem parseStem_eq_claim (raw : Str) : parseStemTimestamp raw = claimParseStem raw := by
  unfold parseStemTimestamp claimParseStem
  rcases hps : splitOnChar '-' raw with _ | ⟨p0, _ | ⟨p1, _ | ⟨p2, _ | ⟨p3, rest⟩⟩⟩⟩
  · simp [hps]
  · simp [hps]
  · simp [hps]
  · simp [hps]
  · simp only [hps]
    have hlen : 4 ≤ (p0 :: p1 :: p2 :: p3 :: rest).length := by
      simp only [List.length_cons]
      omega
    rw [if_pos hlen]
    simp only [List.take_succ_cons, List.take_zero, List.getD_cons_succ,
      List.getD_cons_zero]
    by_cases h6 : p3.length = 6
    · have hne : p3 ≠ [] := by
        intro hc
        rw [hc] at h6
        simp at h6
      rw [if_pos ⟨hne, h6⟩, if_pos h6]
      simp only [joinSep, str]
      simp [List.append_assoc]
    · rw [if_neg (fun hc => h6 hc.2), if_neg h6]

/-- C5 counterexample: for an image file whose name contains a png
extension before the final one, the listed timestamp is computed from the
name with its first png occurrence removed, not from the filename stem, and
the two disagree. -/
theorem listing_timestamp_stem_counterexample :
    listedTimestampOf (str "a.png-b-c-123456.png") = str "a-b-c-123456.png"
    ∧ claimParseStem (stemOf (str "a.png-b-c-123456.png")) = str "a.png-b-c 12:34:56"
    ∧ listedTimestampOf (str "a.png-b-c-123456.png")
        ≠ claimParseStem (stemOf (str "a.png-b-c-123456.png")) := by
  refine ⟨by decide, by decide, by decide⟩

/-- C5 (amended): the listed timestamp is computed from the filename with
the first occurrence of the png extension removed — which equals the
filename stem whenever that extension occurs exactly once, at the end — by
the split-on-hyphen rule exactly as claimed, and the two documented
examples hold. -/
theorem listing_timestamp_parse :
    (∀ file, listedTimestampOf file = claimParseStem (replaceFirst file (str ".png") []))
    ∧ (∀ file, pngOnceFinal file = true → replaceFirst file (str ".png") [] = stemOf file)
    ∧ listedTimestampOf (str "2025-10-26-215555.png") = str "2025-10-26 21:55:55"
    ∧ listedTimestampOf (str "abc123.png") = str "abc123" := by
  refine ⟨?_, ?_, by decide, by decide⟩
  · intro file
    unfold listedTimestampOf
    exact parseStem_eq_claim _
  · intro file h
    obtain ⟨a, -, hstem, hrepl⟩ := pngOnce_decomp file h
    rw [hrepl, hstem, List.append_nil]

/-- C5 witness: the amended parse theorem evaluated at the documented
example file, whose png extension occurs exactly once and finally. -/
theorem listing_timestamp_parse_witness :
    pngOnceFinal (str "2025-10-26-215555.png") = true
    ∧ replaceFirst (str "2025-10-26-215555.png") (str ".png") []
        = stemOf (str "2025-10-26-215555.png") :=
  ⟨by decide, listing_timestamp_parse.2.1 (str "2025-10-26-215555.png") (by decide)⟩

/-! ### C3: upload postcondition -/

/-- C3 counterexample: an upload whose original name yields a non-png
derived filename.  Both handlers compute the sidecar path by replacing the
png extension, so for the jpg filename nothing is replaced: the promised
stem-dot-txt sidecar is never among the written paths, and the prompt
write in fact targets the image path itself. -/
theorem upload_sidecar_counterexample :
    (stemOf (deriveFilename (str "2025-01-02T03:04:05.678Z") (str "art.jpg")) ++ str ".txt")
      ∉ ((uploadApp (str "2025-01-02T03:04:05.678Z") (str "p") [] (str "t")
          (str "art.jpg") (str "IMG")).1.map Prod.fst)
    ∧ (stemOf (deriveFilename (str "2025-01-02T03:04:05.678Z") (str "art.jpg")) ++ str ".txt")
      ∉ ((uploadPages (str "2025-01-02T03:04:05.678Z") (str "p") [] (str "t")
          (str "art.jpg") (str "IMG")).1.map Prod.fst)
    ∧ replaceFirst (deriveFilename (str "2025-01-02T03:04:05.678Z") (str "art.jpg"))
        (str ".png") (str ".txt")
      = deriveFilename (str "2025-01-02T03:04:05.678Z") (str "art.jpg") := by
  refine ⟨by decide, by decide, by decide⟩

/-- C3 (amended): for every upload whose derived filename contains the png
extension exactly once, at the end, both handlers behave identically and as
claimed: the returned id is the derived filename, the image bytes are
written to it, the stem-dot-txt sidecar is written with exactly the prompt,
a newline and the type, and the stem-story sidecar is written (with exactly
the story) if and only if a non-empty story was supplied. -/
theorem upload_postcondition_png (timestamp prompt story type originalName image : Str)
    (h : pngOnceFinal (deriveFilename timestamp originalName) = true) :
    uploadApp timestamp prompt story type originalName image
        = uploadPages timestamp prompt story type originalName image
    ∧ (uploadApp timestamp prompt story type originalName image).2.id
        = deriveFilename timestamp originalName
    ∧ (deriveFilename timestamp originalName, image)
        ∈ (uploadApp timestamp prompt story type originalName image).1
    ∧ (stemOf (deriveFilename timestamp originalName) ++ str ".txt",
        prompt ++ '\n' :: type)
        ∈ (uploadApp timestamp prompt story type originalName image).1
    ∧ ((stemOf (deriveFilename timestamp originalName) ++ str "_story.txt")
        ∈ (uploadApp timestamp prompt story type originalName image).1.map Prod.fst
          ↔ story ≠ [])
    ∧ (story ≠ [] →
        (stemOf (deriveFilename timestamp originalName) ++ str "_story.txt", story)
          ∈ (uploadApp timestamp prompt story type originalName image).1) := by
  obtain ⟨a, ha, hstem, hrepl⟩ := pngOnce_decomp _ h
  have hsuf : (str ".png").isSuffixOf (deriveFilename timestamp originalName) = true := by
    unfold pngOnceFinal at h
    rw [Bool.and_eq_true] at h
    exact h.1
  have hend : ∀ rep, replaceEnd (deriveFilename timestamp originalName) (str ".png") rep
      = a ++ rep := by
    intro rep
    unfold replaceEnd
    rw [if_pos hsuf, ha]
    have hl : (a ++ str ".png").length - (str ".png").length = a.length := by
      simp only [List.length_append]
      omega
    rw [hl, List.take_left]
  refine ⟨?_, rfl, ?_, ?_, ?_, ?_⟩
  · simp only [uploadApp, uploadPages]
    simp only [hrepl, hend]
  · simp only [uploadApp]
    simp
  · simp only [uploadApp]
    simp only [hrepl, hstem]
    simp
  · simp only [uploadApp]
    simp only [hrepl, hstem]
    constructor
    · intro hmem hstory
      rw [if_pos hstory] at hmem
      simp only [List.append_nil, List.map_cons, List.map_nil, List.mem_cons,
        List.not_mem_nil, or_false] at hmem
      rcases hmem with hmem | hmem
      · rw [ha] at hmem
        have hlenc := congrArg List.length hmem
        simp only [List.length_append, str] at hlenc
        simp at hlenc
      · have hlenc := congrArg List.length hmem
        simp only [List.length_append, str] at hlenc
        simp at hlenc
    · intro hstory
      rw [if_neg hstory]
      simp
  · intro hstory
    simp only [uploadApp]
    simp only [hrepl, hstem]
    rw [if_neg hstory]
    simp

/-- C3 witness: the amended upload postcondition at a concrete png upload
with a story. -/
theorem upload_postcondition_png_witness :
    pngOnceFinal (deriveFilename (str "2025-01-02T03:04:05.678Z") (str "art.png")) = true
    ∧ (stemOf (deriveFilename (str "2025-01-02T03:04:05.678Z") (str "art.png")) ++ str ".txt",
        str "p" ++ '\n' :: str "t")
      ∈ (uploadApp (str "2025-01-02T03:04:05.678Z") (str "p") (str "hi") (str "t")
          (str "art.png") (str "IMG")).1 :=
  ⟨by decide,
   (upload_postcondition_png (str "2025-01-02T03:04:05.678Z") (str "p") (str "hi") (str "t")
      (str "art.png") (str "IMG") (by decide)).2.2.2.1⟩

/-! ### C6: listing sort order -/

/-- Head-and-tail characterization of a key-based comparison. -/
theorem keyLe_cons_iff (key : Char → Nat) (x y : Char) (xs ys : Str) :
    keyLe key (x :: xs) (y :: ys) = true
      ↔ ((key x = key y ∧ keyLe key xs ys = true) ∨ (key x ≠ key y ∧ key x < key y)) := by
  by_cases h : key x = key y
  · simp [keyLe, h]
  · simp [keyLe, h]

/-- Every key-based comparison is total. -/
theorem keyLe_total (key : Char → Nat) :
    ∀ a b : Str, keyLe key a b = true ∨ keyLe key b a = true := by
  intro a
  induction a with
  | nil => intro b; left; rfl
  | cons x xs ih =>
    intro b
    cases b with
    | nil => right; rfl
    | cons y ys =>
      rcases Nat.lt_trichotomy (key x) (key y) with h | h | h
      · left
        rw [keyLe_cons_iff]
        exact Or.inr ⟨Nat.ne_of_lt h, h⟩
      · rcases ih ys with ht | ht
        · left
          rw [keyLe_cons_iff]
          exact Or.inl ⟨h, ht⟩
        · right
          rw [keyLe_cons_iff]
          exact Or.inl ⟨h.symm, ht⟩
      · right
        rw [keyLe_cons_iff]
        exact Or.inr ⟨Nat.ne_of_lt h, h⟩

/-- Every key-based comparison is transitive. -/
theorem keyLe_trans (key : Char → Nat) : ∀ a b c : Str,
    keyLe key a b = true → keyLe key b c = true → keyLe key a c = true := by
  intro a
  induction a with
  | nil => intro b c _ _; rfl
  | cons x xs ih =>
    intro b c h1 h2
    cases b with
    | nil => simp [keyLe] at h1
    | cons y ys =>
      cases c with
      | nil => simp [keyLe] at h2
      | cons z zs =>
        rw [keyLe_cons_iff] at h1 h2 ⊢
        rcases h1 with ⟨hxy, ht1⟩ | ⟨hxy, hlt1⟩
        · rcases h2 with ⟨hyz, ht2⟩ | ⟨hyz, hlt2⟩
          · exact Or.inl ⟨hxy.trans hyz, ih ys zs ht1 ht2⟩
          · rw [← hxy] at hyz hlt2
            exact Or.inr ⟨hyz, hlt2⟩
        · rcases h2 with ⟨hyz, ht2⟩ | ⟨hyz, hlt2⟩
          · rw [hyz] at hxy hlt1
            exact Or.inr ⟨hxy, hlt1⟩
          · refine Or.inr ⟨?_, Nat.lt_trans hlt1 hlt2⟩
            intro hxz
            rw [hxz] at hlt1
            exact Nat.lt_irrefl _ (Nat.lt_trans hlt1 hlt2)

/-- The plain comparison is total. -/
theorem lexLe_total (a b : Str) : lexLe a b = true ∨ lexLe b a = true :=
  keyLe_total Char.toNat a b

/-- The plain comparison is transitive. -/
theorem lexLe_trans (a b c : Str) :
    lexLe a b = true → lexLe b c = true → lexLe a c = true :=
  keyLe_trans Char.toNat a b c

instance : IsTotal Post postBefore :=
  ⟨fun a b => lexLe_total b.timestamp a.timestamp⟩

instance : IsTrans Post postBefore :=
  ⟨fun a b c hab hbc => lexLe_trans c.timestamp b.timestamp a.timestamp hbc hab⟩

/-- A comparator built from a boolean comparison reports at most zero
exactly when the comparison holds. -/
theorem cmpOfLe_le_zero (le : Str → Str → Bool) (x y : Str) :
    cmpOfLe le x y ≤ 0 ↔ le x y = true := by
  unfold cmpOfLe
  by_cases h1 : le x y = true
  · by_cases h2 : le y x = true
    · simp [h1, h2]
    · simp [h1, h2]
  · simp [h1]

/-- The plain comparator is consistent: total. -/
theorem lexCmp_total (x y : Str) : lexCmp x y ≤ 0 ∨ lexCmp y x ≤ 0 := by
  rw [lexCmp, cmpOfLe_le_zero, cmpOfLe_le_zero]
  exact lexLe_total x y

/-- The plain comparator is consistent: transitive. -/
theorem lexCmp_trans (x y z : Str) :
    lexCmp x y ≤ 0 → lexCmp y z ≤ 0 → lexCmp x z ≤ 0 := by
  rw [lexCmp, cmpOfLe_le_zero, cmpOfLe_le_zero, cmpOfLe_le_zero]
  exact lexLe_trans x y z

/-- The default-locale-style case collation is consistent: total. -/
theorem caseCmp_total (x y : Str) : caseCmp x y ≤ 0 ∨ caseCmp y x ≤ 0 := by
  rw [caseCmp, cmpOfLe_le_zero, cmpOfLe_le_zero]
  exact keyLe_total caseKey x y

/-- The default-locale-style case collation is consistent: transitive. -/
theorem caseCmp_trans (x y z : Str) :
    caseCmp x y ≤ 0 → caseCmp y z ≤ 0 → caseCmp x z ≤ 0 := by
  rw [caseCmp, cmpOfLe_le_zero, cmpOfLe_le_zero, cmpOfLe_le_zero]
  exact keyLe_trans caseKey x y z

/-- Under the plain comparator oracle, the induced sort relation is the
claim-side descending order. -/
theorem postBeforeWith_lexCmp (a b : Post) :
    postBeforeWith lexCmp a b ↔ postBefore a b := by
  unfold postBeforeWith postBefore lexCmp
  rw [cmpOfLe_le_zero]

/-- C6 counterexample: the claim, as stated, fails on the code.  The
source sorts with localeCompare; under the consistent default-locale-style
collation caseCmp (lowercase collates before uppercase, as in real
locales) a store with the fallback timestamps of the files x-B.png and
x-a.png is listed in the order x-B, x-a, which is not sorted descending
under plain string comparison. -/
theorem listing_sorted_desc_counterexample :
    (listPosts
        (storeWrite (storeWrite [] (str "x-B.png") (str "i1")) (str "x-a.png") (str "i2"))
        (fun _ => (0, 0, 0)) caseCmp).map Post.timestamp = [str "x-B", str "x-a"]
    ∧ ¬ List.Sorted postBefore
        (listPosts
          (storeWrite (storeWrite [] (str "x-B.png") (str "i1")) (str "x-a.png") (str "i2"))
          (fun _ => (0, 0, 0)) caseCmp) := by
  refine ⟨by decide, by decide⟩

/-- C6 (amended): the listing and the snapshot output are always sorted in
descending timestamp order under the comparator the code calls, namely the
environment's localeCompare collation: for every consistent collation
oracle the output is sorted descending by that collation, and when the
collation is plain code-point comparison the output is sorted descending
under plain string comparison, with the documented two-timestamp example
listing the later timestamp first.  Sortedness under plain string
comparison does not hold for every collation: default-locale collations
order letter case against code-point order (see the counterexample). -/
theorem listing_sorted_desc :
    (∀ store rand (cmp : Str → Str → Int),
      (∀ x y, cmp x y ≤ 0 ∨ cmp y x ≤ 0) →
      (∀ x y z, cmp x y ≤ 0 → cmp y z ≤ 0 → cmp x z ≤ 0) →
      List.Sorted (postBeforeWith cmp) (listPosts store rand cmp)
      ∧ List.Sorted (postBeforeWith cmp) (generatePostsJson store rand cmp))
    ∧ (∀ store rand, List.Sorted postBefore (listPosts store rand lexCmp))
    ∧ (listPosts
        (storeWrite (storeWrite [] (str "2025-10-26-215555.png") (str "i1"))
          (str "2025-10-27-000000.png") (str "i2"))
        (fun _ => (0, 0, 0)) lexCmp).map Post.timestamp
      = [str "2025-10-27 00:00:00", str "2025-10-26 21:55:55"] := by
  have hsorted : ∀ store rand (cmp : Str → Str → Int),
      (∀ x y, cmp x y ≤ 0 ∨ cmp y x ≤ 0) →
      (∀ x y z, cmp x y ≤ 0 → cmp y z ≤ 0 → cmp x z ≤ 0) →
      List.Sorted (postBeforeWith cmp) (listPosts store rand cmp) := by
    intro store rand cmp htot htrans
    haveI : IsTotal Post (postBeforeWith cmp) :=
      ⟨fun a b => htot b.timestamp a.timestamp⟩
    haveI : IsTrans Post (postBeforeWith cmp) :=
      ⟨fun a b c hab hbc => htrans c.timestamp b.timestamp a.timestamp hbc hab⟩
    exact List.sorted_insertionSort (postBeforeWith cmp) _
  refine ⟨fun store rand cmp htot htrans =>
    ⟨hsorted store rand cmp htot htrans, hsorted store rand cmp htot htrans⟩, ?_, by decide⟩
  · intro store rand
    have h := hsorted store rand lexCmp lexCmp_total lexCmp_trans
    exact h.imp (fun hab => (postBeforeWith_lexCmp _ _).mp hab)

/-- C6 witness: the amended sortedness theorem applied with the plain
comparator, whose consistency discharges the hypotheses. -/
theorem listing_sorted_desc_witness :
    List.Sorted (postBeforeWith lexCmp)
      (listPosts
        (storeWrite (storeWrite [] (str "2025-10-26-215555.png") (str "i1"))
          (str "2025-10-27-000000.png") (str "i2"))
        (fun _ => (0, 0, 0)) lexCmp)
    ∧ List.Sorted (postBeforeWith lexCmp)
      (generatePostsJson
        (storeWrite (storeWrite [] (str "2025-10-26-215555.png") (str "i1"))
          (str "2025-10-27-000000.png") (str "i2"))
        (fun _ => (0, 0, 0)) lexCmp) :=
  listing_sorted_desc.1
    (storeWrite (storeWrite [] (str "2025-10-26-215555.png") (str "i1"))
      (str "2025-10-27-000000.png") (str "i2"))
    (fun _ => (0, 0, 0)) lexCmp lexCmp_total lexCmp_trans

/-! ### C9: png-only listing filter and the image route -/

/-- Applying writes piles them, newest first, onto the store. -/
theorem applyWrites_eq : ∀ (ws : List (Str × Str)) (s : Store),
    applyWrites ws s = ws.reverse ++ s := by
  intro ws
  induction ws with
  | nil => intro s; simp [applyWrites]
  | cons w rest ih =>
    intro s
    show applyWrites rest (storeWrite s w.1 w.2) = (w :: rest).reverse ++ s
    rw [ih, List.reverse_cons, List.append_assoc]
    rfl

/-- A written path shows up in the directory listing of the fresh store. -/
theorem mem_storeFiles_applyWrites (ws : List (Str × Str)) (k v : Str)
    (h : (k, v) ∈ ws) : k ∈ storeFiles (applyWrites ws []) := by
  rw [applyWrites_eq, List.append_nil]
  unfold storeFiles
  rw [List.mem_dedup]
  exact List.mem_map_of_mem _ (List.mem_reverse.mpr h)

/-- Reading a path that appears in the store never misses. -/
theorem storeRead_ne_none_of_mem : ∀ (s : Store) (k : Str),
    k ∈ s.map Prod.fst → storeRead s k ≠ none := by
  intro s
  induction s with
  | nil => intro k h; simp at h
  | cons e rest ih =>
    intro k h hnone
    by_cases hek : e.1 = k
    · simp [storeRead, List.find?, hek] at hnone
    · have hrest : storeRead rest k = none := by
        simpa [storeRead, List.find?, hek] using hnone
      have hmem : k ∈ rest.map Prod.fst := by
        simp only [List.map_cons, List.mem_cons] at h
        rcases h with h | h
        · exact absurd h.symm hek
        · exact h
      exact ih k hmem hrest

/-- The id of a built post is its file name. -/
theorem postFromFile_id (store : Store) (rand : Str → Nat × Nat × Nat) (file : Str) :
    (postFromFile store rand file).id = file := rfl

/-- A file is listed exactly when it is stored and carries the png
extension, whatever the collation oracle. -/
theorem listPosts_id_mem (store : Store) (rand : Str → Nat × Nat × Nat)
    (cmp : Str → Str → Int) (f : Str) :
    (∃ p ∈ listPosts store rand cmp, p.id = f)
      ↔ (f ∈ storeFiles store ∧ (str ".png").isSuffixOf f = true) := by
  unfold listPosts
  constructor
  · rintro ⟨p, hp, rfl⟩
    rw [(List.perm_insertionSort (postBeforeWith cmp) _).mem_iff] at hp
    obtain ⟨file, hfile, rfl⟩ := List.mem_map.mp hp
    rw [postFromFile_id]
    exact List.mem_filter.mp hfile
  · rintro ⟨hmem, hsuf⟩
    refine ⟨postFromFile store rand f, ?_, rfl⟩
    rw [(List.perm_insertionSort (postBeforeWith cmp) _).mem_iff]
    exact List.mem_map_of_mem _ (List.mem_filter.mpr ⟨hmem, hsuf⟩)

/-- C9: the listing service and the snapshot generator output a post for a
file exactly when the stored name ends in the png extension; the image
route misses only when neither directory holds the file; and an upload
whose derived filename has any other extension is present in the store and
served by the route, yet never appears among the listed posts. -/
theorem listing_png_filter_iff :
    (∀ store rand cmp f, ((∃ p ∈ listPosts store rand cmp, p.id = f)
        ↔ (f ∈ storeFiles store ∧ (str ".png").isSuffixOf f = true)))
    ∧ (∀ store rand cmp f, ((∃ p ∈ generatePostsJson store rand cmp, p.id = f)
        ↔ (f ∈ storeFiles store ∧ (str ".png").isSuffixOf f = true)))
    ∧ (∀ pub db f, (serveImage pub db f = none
        ↔ (storeRead pub f = none ∧ storeRead db f = none)))
    ∧ (∀ timestamp prompt story type originalName image rand cmp pub,
        (str ".png").isSuffixOf (deriveFilename timestamp originalName) = false →
        deriveFilename timestamp originalName
            ∈ storeFiles (uploadStoreApp timestamp prompt story type originalName image)
        ∧ serveImage pub (uploadStoreApp timestamp prompt story type originalName image)
            (deriveFilename timestamp originalName) ≠ none
        ∧ ¬ ∃ p ∈ listPosts (uploadStoreApp timestamp prompt story type originalName image)
              rand cmp,
            p.id = deriveFilename timestamp originalName) := by
  refine ⟨listPosts_id_mem, listPosts_id_mem, ?_, ?_⟩
  · intro pub db f
    rcases hpub : storeRead pub f with _ | c
    · rcases hdb : storeRead db f with _ | c2
      · simp [serveImage, hpub, hdb]
      · simp [serveImage, hpub, hdb]
    · simp [serveImage, hpub]
  · intro timestamp prompt story type originalName image rand cmp pub h
    have hpair : (deriveFilename timestamp originalName, image)
        ∈ (uploadApp timestamp prompt story type originalName image).1 := by
      simp only [uploadApp]
      simp
    have hmem : deriveFilename timestamp originalName
        ∈ storeFiles (uploadStoreApp timestamp prompt story type originalName image) := by
      unfold uploadStoreApp
      exact mem_storeFiles_applyWrites _ _ _ hpair
    have hmemmap : deriveFilename timestamp originalName
        ∈ (uploadStoreApp timestamp prompt story type originalName image).map Prod.fst := by
      have := hmem
      unfold storeFiles at this
      rw [List.mem_dedup] at this
      exact this
    refine ⟨hmem, ?_, ?_⟩
    · intro hcon
      rcases hpub : storeRead pub (deriveFilename timestamp originalName) with _ | c
      · rcases hdb : storeRead
            (uploadStoreApp timestamp prompt story type originalName image)
            (deriveFilename timestamp originalName) with _ | c2
        · exact storeRead_ne_none_of_mem _ _ hmemmap hdb
        · unfold serveImage at hcon
          rw [hpub, hdb] at hcon
          simp at hcon
      · unfold serveImage at hcon
        rw [hpub] at hcon
        simp at hcon
    · intro hex
      have := (listPosts_id_mem _ rand cmp _).mp hex
      rw [h] at this
      simp at this

/-- C9 witness: a concrete jpg upload is stored yet invisible to the
listing. -/
theorem listing_png_filter_iff_witness :
    (str ".png").isSuffixOf
        (deriveFilename (str "2025-01-02T03:04:05.678Z") (str "art.jpg")) = false
    ∧ ¬ ∃ p ∈ listPosts
          (uploadStoreApp (str "2025-01-02T03:04:05.678Z") (str "p") [] (str "t")
            (str "art.jpg") (str "IMG")) (fun _ => (0, 0, 0)) lexCmp,
        p.id = deriveFilename (str "2025-01-02T03:04:05.678Z") (str "art.jpg") :=
  ⟨by decide,
   (listing_png_filter_iff.2.2.2 (str "2025-01-02T03:04:05.678Z") (str "p") [] (str "t")
      (str "art.jpg") (str "IMG") (fun _ => (0, 0, 0)) lexCmp [] (by decide)).2.2⟩

/-! ### C10: story round-trip -/

/-- C10: uploading a post whose derived filename carries the png extension
and then listing the store yields that post with a story equal to the
uploaded story with surrounding whitespace trimmed; in particular a
whitespace-only story lists as the empty string, indistinguishable from a
post uploaded without a story. -/
theorem story_roundtrip_trim (timestamp prompt story type originalName image : Str)
    (rand : Str → Nat × Nat × Nat) (cmp : Str → Str → Int)
    (h : (str ".png").isSuffixOf (deriveFilename timestamp originalName) = true) :
    ∃ p ∈ listPosts (uploadStoreApp timestamp prompt story type originalName image) rand cmp,
      p.id = deriveFilename timestamp originalName ∧ p.story = trimL story := by
  have hcontains : containsSub (str ".png") (deriveFilename timestamp originalName) = true := by
    obtain ⟨a, ha⟩ := isSuffixOf_exists _ _ h
    rw [ha]
    exact containsSub_append_self a (str ".png")
  obtain ⟨pp, qq, hf, hrw⟩ := replaceFirst_decomp _ (str ".png") hcontains
  have hlenf : (deriveFilename timestamp originalName).length
      = pp.length + 4 + qq.length := by
    rw [hf]
    simp [str]
    omega
  have hsne_f : replaceFirst (deriveFilename timestamp originalName) (str ".png")
      (str "_story.txt") ≠ deriveFilename timestamp originalName := by
    rw [hrw]
    intro he
    have := congrArg List.length he
    rw [hlenf] at this
    simp [str] at this
    omega
  have hsne_p : replaceFirst (deriveFilename timestamp originalName) (str ".png")
      (str "_story.txt")
      ≠ replaceFirst (deriveFilename timestamp originalName) (str ".png") (str ".txt") := by
    rw [hrw, hrw]
    intro he
    have := congrArg List.length he
    simp [str] at this
    omega
  have hpair : (deriveFilename timestamp originalName, image)
      ∈ (uploadApp timestamp prompt story type originalName image).1 := by
    simp only [uploadApp]
    simp
  have hmemfiles : deriveFilename timestamp originalName
      ∈ storeFiles (uploadStoreApp timestamp prompt story type originalName image) := by
    unfold uploadStoreApp
    exact mem_storeFiles_applyWrites _ _ _ hpair
  refine ⟨postFromFile (uploadStoreApp timestamp prompt story type originalName image)
      rand (deriveFilename timestamp originalName), ?_, rfl, ?_⟩
  · unfold listPosts
    rw [(List.perm_insertionSort (postBeforeWith cmp) _).mem_iff]
    exact List.mem_map_of_mem _ (List.mem_filter.mpr ⟨hmemfiles, h⟩)
  · have hread : storeRead (uploadStoreApp timestamp prompt story type originalName image)
        (replaceFirst (deriveFilename timestamp originalName) (str ".png") (str "_story.txt"))
        = if story = [] then none else some story := by
      unfold uploadStoreApp
      rw [applyWrites_eq, List.append_nil]
      simp only [uploadApp]
      by_cases hstory : story = []
      · rw [if_pos hstory, if_pos hstory]
        simp only [List.append_nil, List.reverse_cons, List.reverse_nil, List.nil_append]
        simp [storeRead, List.find?, hsne_p.symm, hsne_f.symm]
      · rw [if_neg hstory, if_neg hstory]
        simp only [List.reverse_append, List.reverse_cons, List.reverse_nil, List.nil_append]
        simp [storeRead, List.find?]
    simp only [postFromFile]
    rw [hread]
    by_cases hstory : story = []
    · rw [if_pos hstory, hstory]
      rfl
    · rw [if_neg hstory]

/-- C10 witness: the round trip at a concrete upload whose story carries
surrounding whitespace. -/
theorem story_roundtrip_trim_witness :
    (str ".png").isSuffixOf
        (deriveFilename (str "2025-01-02T03:04:05.678Z") (str "art.png")) = true
    ∧ ∃ p ∈ listPosts
          (uploadStoreApp (str "2025-01-02T03:04:05.678Z") (str "p") (str " hi ") (str "t")
            (str "art.png") (str "IMG")) (fun _ => (0, 0, 0)) lexCmp,
        p.id = deriveFilename (str "2025-01-02T03:04:05.678Z") (str "art.png")
        ∧ p.story = trimL (str " hi ") :=
  ⟨by decide,
   story_roundtrip_trim (str "2025-01-02T03:04:05.678Z") (str "p") (str " hi ") (str "t")
      (str "art.png") (str "IMG") (fun _ => (0, 0, 0)) lexCmp (by decide)⟩

/-! ### C8: freeze on release -/

/-- The cross-handler invariant of the strip view: the last-hovered
reference is unset or agrees with the displayed post (every selecting
handler writes both together). -/
def stripInv (s : StripState) : Prop :=
  s.lastHoveredPost = none ∨ s.lastHoveredPost = s.displayedPost

/-- The loaded state satisfies the invariant. -/
theorem stripInit_inv (posts : List Str) (rIdx : Nat) : stripInv (stripInit posts rIdx) := by
  unfold stripInit stripInv
  split
  · exact Or.inl rfl
  · exact Or.inr rfl

/-- Touch moves preserve the invariant. -/
theorem stripTouchMove_inv (posts : List Str) (y H : ℚ) (s : StripState)
    (h : stripInv s) : stripInv (stripTouchMove posts y H s) := by
  simp only [stripTouchMove]
  split
  · exact h
  · split
    · exact Or.inr rfl
    · exact h

/-- Mouse moves preserve the invariant. -/
theorem stripMouseMove_inv (posts : List Str) (y H : ℚ) (s : StripState)
    (h : stripInv s) : stripInv (stripMouseMove posts y H s) := by
  simp only [stripMouseMove]
  split
  · exact h
  · split
    · split
      · split
        · exact Or.inr rfl
        · exact h
      · exact h
    · exact h

/-- Mouse downs preserve the invariant. -/
theorem stripMouseDown_inv (posts : List Str) (y H : ℚ) (s : StripState)
    (h : stripInv s) : stripInv (stripMouseDown posts y H s) := by
  simp only [stripMouseDown]
  split
  · exact h
  · split
    · split
      · exact Or.inr rfl
      · exact h
    · exact h

/-- Touch starts preserve the invariant. -/
theorem stripTouchStart_inv (posts : List Str) (y H : ℚ) (s : StripState)
    (h : stripInv s) : stripInv (stripTouchStart posts y H s) :=
  stripTouchMove_inv posts y H _ h

/-- Mouse up preserves the invariant. -/
theorem stripMouseUp_inv (s : StripState) (_h : stripInv s) : stripInv (stripMouseUp s) := by
  unfold stripMouseUp stripInv
  rcases hl : s.lastHoveredPost with _ | p
  · simp [hl]
  · simp [hl]

/-- Touch end preserves the invariant. -/
theorem stripTouchEnd_inv (s : StripState) (_h : stripInv s) : stripInv (stripTouchEnd s) := by
  unfold stripTouchEnd stripInv
  rcases hl : s.lastHoveredPost with _ | p
  · simp [hl]
  · simp [hl]

/-- Every strip event preserves the invariant. -/
theorem stripStep_inv (posts : List Str) (e : StripEvent) (s : StripState)
    (h : stripInv s) : stripInv (stripStep posts e s) := by
  cases e with
  | mouseMove y H => exact stripMouseMove_inv posts y H s h
  | mouseDown y H => exact stripMouseDown_inv posts y H s h
  | touchStart y H => exact stripTouchStart_inv posts y H s h
  | touchMove y H => exact stripTouchMove_inv posts y H s h
  | mouseUp => exact stripMouseUp_inv s h
  | mouseLeave => exact stripMouseUp_inv s h
  | touchEnd => exact stripTouchEnd_inv s h
  | touchCancel =>
    show stripInv (stripTouchCancel s)
    unfold stripTouchCancel
    split
    · exact stripTouchEnd_inv s h
    · exact h

/-- The invariant holds in every reachable strip state. -/
theorem runStrip_inv (posts : List Str) (rIdx : Nat) (evs : List StripEvent) :
    stripInv (runStrip posts rIdx evs) := by
  unfold runStrip
  have haux : ∀ (l : List StripEvent) (s : StripState), stripInv s →
      stripInv (l.foldl (fun st e => stripStep posts e st) s) := by
    intro l
    induction l with
    | nil => intro s h; exact h
    | cons e rest ih =>
      intro s h
      exact ih _ (stripStep_inv posts e s h)
  exact haux evs _ (stripInit_inv posts rIdx)

/-- A release keeps the displayed post when the invariant holds. -/
theorem stripMouseUp_displayed (s : StripState) (h : stripInv s) :
    (stripMouseUp s).displayedPost = s.displayedPost := by
  unfold stripMouseUp
  rcases hl : s.lastHoveredPost with _ | p
  · rfl
  · rcases h with h | h
    · rw [hl] at h
      cases h
    · rw [hl] at h
      simp [← h]

/-- A touch-end release keeps the displayed post when the invariant holds. -/
theorem stripTouchEnd_displayed (s : StripState) (h : stripInv s) :
    (stripTouchEnd s).displayedPost = s.displayedPost := by
  unfold stripTouchEnd
  rcases hl : s.lastHoveredPost with _ | p
  · rfl
  · rcases h with h | h
    · rw [hl] at h
      cases h
    · rw [hl] at h
      simp [← h]

/-- C8: after any sequence of load, move, press and release events in the
strip view, each of the four release transitions (mouse up, mouse leave,
touch end, touch cancel) leaves the displayed post exactly as it was: the
last value selected before the release stays frozen. -/
theorem strip_freeze_on_release (posts : List Str) (rIdx : Nat) (evs : List StripEvent) :
    (stripStep posts StripEvent.mouseUp (runStrip posts rIdx evs)).displayedPost
        = (runStrip posts rIdx evs).displayedPost
    ∧ (stripStep posts StripEvent.mouseLeave (runStrip posts rIdx evs)).displayedPost
        = (runStrip posts rIdx evs).displayedPost
    ∧ (stripStep posts StripEvent.touchEnd (runStrip posts rIdx evs)).displayedPost
        = (runStrip posts rIdx evs).displayedPost
    ∧ (stripStep posts StripEvent.touchCancel (runStrip posts rIdx evs)).displayedPost
        = (runStrip posts rIdx evs).displayedPost := by
  have hinv := runStrip_inv posts rIdx evs
  refine ⟨stripMouseUp_displayed _ hinv, stripMouseUp_displayed _ hinv,
    stripTouchEnd_displayed _ hinv, ?_⟩
  show (stripTouchCancel (runStrip posts rIdx evs)).displayedPost = _
  unfold stripTouchCancel
  split
  · exact stripTouchEnd_displayed _ hinv
  · rfl

/-! ### C7: scrub selection -/

/-- The touch path always selects the clamped band index. -/
theorem stripTouchMove_select (posts : List Str) (y H : ℚ) (s : StripState)
    (hne : posts ≠ []) :
    (stripTouchMove posts y H s).displayedPost
      = some (posts.getD (max 0 (min ⌊y / (H / (posts.length : ℚ))⌋
          ((posts.length : ℤ) - 1))).toNat []) := by
  have hlen : 0 < posts.length := List.length_pos.mpr hne
  have hlen0 : ¬ posts.length = 0 := by omega
  simp only [stripTouchMove, if_neg hlen0]
  set n := (max 0 (min ⌊y / (H / (posts.length : ℚ))⌋ ((posts.length : ℤ) - 1))).toNat with hn
  have hlt : n < posts.length := by
    have h1 : min ⌊y / (H / (posts.length : ℚ))⌋ ((posts.length : ℤ) - 1)
        ≤ (posts.length : ℤ) - 1 := min_le_right _ _
    omega
  have hget : posts.get? n = some (posts.getD n []) := by
    rw [List.get?_eq_getElem?, List.getElem?_eq_getElem hlt, List.getD_eq_getElem?_getD,
      List.getElem?_eq_getElem hlt]
    rfl
  simp only [hget]

/-- The mouse path selects the floor index when it already lies in range. -/
theorem stripMouseMove_inRange (posts : List Str) (y H : ℚ) (s : StripState)
    (hne : posts ≠ []) (hH : 0 < H)
    (h0 : 0 ≤ ⌊y / (H / (posts.length : ℚ))⌋)
    (hlt : ⌊y / (H / (posts.length : ℚ))⌋ < (posts.length : ℤ)) :
    (stripMouseMove posts y H s).displayedPost
      = some (posts.getD (⌊y / (H / (posts.length : ℚ))⌋).toNat []) := by
  have hlen : 0 < posts.length := List.length_pos.mpr hne
  have hlen0 : ¬ posts.length = 0 := by omega
  simp only [stripMouseMove, if_neg hlen0]
  rw [if_pos ⟨h0, hlt⟩]
  set i := ⌊y / (H / (posts.length : ℚ))⌋ with hi
  have hnat : i.toNat < posts.length := by omega
  have hget : posts.get? i.toNat = some (posts.getD i.toNat []) := by
    rw [List.get?_eq_getElem?, List.getElem?_eq_getElem hnat, List.getD_eq_getElem?_getD,
      List.getElem?_eq_getElem hnat]
    rfl
  have hph : 0 < H / (posts.length : ℚ) := by
    apply div_pos hH
    exact_mod_cast hlen
  have hband1 : (i : ℚ) * (H / (posts.length : ℚ)) ≤ y := by
    have hfl := Int.floor_le (y / (H / (posts.length : ℚ)))
    rw [← hi] at hfl
    exact (le_div_iff₀ hph).mp hfl
  have hband2 : y ≤ (i : ℚ) * (H / (posts.length : ℚ)) + H / (posts.length : ℚ) := by
    have hfl := Int.lt_floor_add_one (y / (H / (posts.length : ℚ)))
    rw [← hi] at hfl
    have hmul := (div_lt_iff₀ hph).mp hfl
    push_cast at hmul
    nlinarith [hmul]
  simp only [hget]
  rw [if_pos ⟨hband1, hband2⟩]

/-- The mouse path leaves the state untouched for out-of-range positions. -/
theorem stripMouseMove_outOfRange (posts : List Str) (y H : ℚ) (s : StripState)
    (h : ⌊y / (H / (posts.length : ℚ))⌋ < 0
      ∨ (posts.length : ℤ) ≤ ⌊y / (H / (posts.length : ℚ))⌋) :
    stripMouseMove posts y H s = s := by
  by_cases hz : posts.length = 0
  · simp only [stripMouseMove, if_pos hz]
  · simp only [stripMouseMove, if_neg hz]
    rw [if_neg ?_]
    rintro ⟨h1, h2⟩
    rcases h with h | h
    · omega
    · omega

/-- C7 counterexample: with four posts in a 400-unit container and a prior
selection of the last post, a mouse position just above the container
(offset minus one) leaves the selection unchanged, whereas the claimed
clamped formula selects index zero (the first post). -/
theorem strip_mouse_clamp_counterexample :
    stripMouseMove [str "a", str "b", str "c", str "d"] (-1) 400
        ⟨none, some (str "d"), some (str "d"), false, false⟩
      = ⟨none, some (str "d"), some (str "d"), false, false⟩
    ∧ (max 0 (min ⌊(-1 : ℚ) / (400 / (([str "a", str "b", str "c", str "d"].length : ℕ) : ℚ))⌋
        (([str "a", str "b", str "c", str "d"].length : ℤ) - 1))).toNat = 0
    ∧ ([str "a", str "b", str "c", str "d"].getD 0 []) = str "a"
    ∧ some (str "d") ≠ some (str "a") := by
  have hfl : ⌊(-1 : ℚ) / (400 / (([str "a", str "b", str "c", str "d"].length : ℕ) : ℚ))⌋
      = -1 := by
    norm_num [List.length]
  refine ⟨?_, ?_, by decide, by decide⟩
  · apply stripMouseMove_outOfRange
    left
    rw [hfl]
    omega
  · rw [hfl]
    decide

/-- C7 (amended): the touch handlers select exactly the claimed clamped
band index for every position; the mouse handlers select the claimed index
whenever it already lies within range, but leave the selection unchanged —
no clamping — for positions outside the container; the documented
150-selects-1 and 399-selects-3 examples hold on both paths. -/
theorem strip_scrub_selection :
    (∀ (posts : List Str) (y H : ℚ) (s : StripState), posts ≠ [] → 0 < H →
      (stripTouchMove posts y H s).displayedPost
        = some (posts.getD (max 0 (min ⌊y / (H / (posts.length : ℚ))⌋
            ((posts.length : ℤ) - 1))).toNat []))
    ∧ (∀ (posts : List Str) (y H : ℚ) (s : StripState), posts ≠ [] → 0 < H →
        0 ≤ ⌊y / (H / (posts.length : ℚ))⌋ →
        ⌊y / (H / (posts.length : ℚ))⌋ < (posts.length : ℤ) →
        (stripMouseMove posts y H s).displayedPost
          = some (posts.getD (⌊y / (H / (posts.length : ℚ))⌋).toNat []))
    ∧ (∀ (posts : List Str) (y H : ℚ) (s : StripState),
        (⌊y / (H / (posts.length : ℚ))⌋ < 0
          ∨ (posts.length : ℤ) ≤ ⌊y / (H / (posts.length : ℚ))⌋) →
        stripMouseMove posts y H s = s)
    ∧ (stripTouchMove [str "a", str "b", str "c", str "d"] 150 400
        (stripInit [str "a", str "b", str "c", str "d"] 0)).displayedPost = some (str "b")
    ∧ (stripTouchMove [str "a", str "b", str "c", str "d"] 399 400
        (stripInit [str "a", str "b", str "c", str "d"] 0)).displayedPost = some (str "d")
    ∧ (stripMouseMove [str "a", str "b", str "c", str "d"] 150 400
        (stripInit [str "a", str "b", str "c", str "d"] 0)).displayedPost = some (str "b")
    ∧ (stripMouseMove [str "a", str "b", str "c", str "d"] 399 400
        (stripInit [str "a", str "b", str "c", str "d"] 0)).displayedPost = some (str "d") := by
  have hfl150 : ⌊(150 : ℚ) / (400 / (([str "a", str "b", str "c", str "d"].length : ℕ) : ℚ))⌋
      = 1 := by
    norm_num [List.length]
  have hfl399 : ⌊(399 : ℚ) / (400 / (([str "a", str "b", str "c", str "d"].length : ℕ) : ℚ))⌋
      = 3 := by
    norm_num [List.length]
  refine ⟨fun posts y H s hne _ => stripTouchMove_select posts y H s hne,
    fun posts y H s hne hH h0 hlt => stripMouseMove_inRange posts y H s hne hH h0 hlt,
    stripMouseMove_outOfRange, ?_, ?_, ?_, ?_⟩
  · rw [stripTouchMove_select _ _ _ _ (by decide), hfl150]
    decide
  · rw [stripTouchMove_select _ _ _ _ (by decide), hfl399]
    decide
  · rw [stripMouseMove_inRange _ _ _ _ (by decide) (by norm_num)
      (by rw [hfl150]; omega) (by rw [hfl150]; decide), hfl150]
    decide
  · rw [stripMouseMove_inRange _ _ _ _ (by decide) (by norm_num)
      (by rw [hfl399]; omega) (by rw [hfl399]; decide), hfl399]
    decide

/-- C7 witness: the amended selection theorem at the documented concrete
inputs. -/
theorem strip_scrub_selection_witness :
    (stripTouchMove [str "a", str "b", str "c", str "d"] 150 400
        (stripInit [str "a", str "b", str "c", str "d"] 0)).displayedPost
      = some (([str "a", str "b", str "c", str "d"] : List Str).getD
          (max 0 (min ⌊(150 : ℚ) / (400 / (([str "a", str "b", str "c", str "d"].length : ℕ) : ℚ))⌋
            (([str "a", str "b", str "c", str "d"].length : ℤ) - 1))).toNat []) :=
  strip_scrub_selection.1 [str "a", str "b", str "c", str "d"] 150 400
    (stripInit [str "a", str "b", str "c", str "d"] 0) (by decide) (by norm_num)
